import Mathlib

/-!
# A shallow embedding of the light checker

This file embeds `src/library/light_checker.cpp`: the type-inference core of
an early dependently-typed proof kernel.  The checker's own logic
(`infer_type`, `get_range`, `infer_universe`, the context/substitution
lifecycle and the interrupt flag) is translated from that source file.
Collaborating components that live outside the given source tree (the
expression representation, contexts, `lift_free_vars`, `closed`,
`instantiate`, the scoped cache, the normalizer and the substitution) are
modelled from the specification's description of their boundary.
-/

set_option maxHeartbeats 1000000

namespace LightChecker

/-- Modelled from the spec: universe levels.  The checker only uses the
bottom level (`level()`), successor (`ty_level(e) + 1`) and `max`, so the
fragment is modelled by natural numbers with `0` as the distinguished
bottom level. -/
abbrev Level := Nat

/-- Modelled from the spec: the immutable expression tree.  One node kind
per case of the spec's data model; `app` is n-ary (argument slot 0 is the
applied function, as in the source's `arg(e, 0)`); a `letE` may omit its
declared type; a metavariable carries an optional declared-type slot
(`metavar_type`); a `value` literal carries its intrinsic stored type. -/
inductive Expr where
  | var (idx : Nat)
  | const (name : String)
  | app (args : List Expr)
  | lam (name : String) (dom : Expr) (body : Expr)
  | pi (name : String) (dom : Expr) (body : Expr)
  | letE (name : String) (type? : Option Expr) (value : Expr) (body : Expr)
  | type (lvl : Level)
  | value (name : String) (ty : Expr)
  | eq (lhs rhs : Expr)
  | mvar (id : Nat) (ty? : Option Expr)

mutual

/-- Modelled from the spec: structural equality of expressions (the
source's `operator==` on terms, used by `infer_universe` to recognize the
boolean sort). -/
def beqE : Expr → Expr → Bool
  | .var i, .var j => i == j
  | .const n, .const m => n == m
  | .app as, .app bs => beqL as bs
  | .lam n d b, .lam n' d' b' => n == n' && beqE d d' && beqE b b'
  | .pi n d b, .pi n' d' b' => n == n' && beqE d d' && beqE b b'
  | .letE n none v b, .letE n' none v' b' => n == n' && beqE v v' && beqE b b'
  | .letE n (some t) v b, .letE n' (some t') v' b' =>
      n == n' && beqE t t' && beqE v v' && beqE b b'
  | .type l, .type l' => l == l'
  | .value n t, .value n' t' => n == n' && beqE t t'
  | .eq a b, .eq a' b' => beqE a a' && beqE b b'
  | .mvar i none, .mvar j none => i == j
  | .mvar i (some t), .mvar j (some t') => i == j && beqE t t'
  | _, _ => false

/-- Modelled from the spec: structural equality of argument lists. -/
def beqL : List Expr → List Expr → Bool
  | [], [] => true
  | a :: as, b :: bs => beqE a b && beqL as bs
  | _, _ => false

end

/-- Modelled from the spec: the fixed boolean/proposition sort (`Bool` in
the source, a builtin value whose intrinsic type is the bottom sort). -/
def boolE : Expr := .value "Bool" (.type 0)

/-- Modelled from the spec: a context entry holds a binder name, an
optional explicit domain type and an optional bound value. -/
structure CEntry where
  name : String
  dom : Option Expr
  body : Option Expr

/-- Modelled from the spec: a context is a persistent sequence of entries,
most recent first, addressed by de Bruijn index. -/
abbrev Context := List CEntry

/-- Modelled from the spec: `lookup(ctx, i)` returns the entry at de
Bruijn index `i` (the source throws on an out-of-range index; here the
caller observes `none`). -/
def lookup (ctx : Context) (i : Nat) : Option CEntry := ctx.get? i

/-- Modelled from the spec: the context in which the entry at index `i`
was itself introduced — the tail below that entry (second component of the
source's `lookup_ext`). -/
def defCtx (ctx : Context) (i : Nat) : Context := ctx.drop (i + 1)

mutual

/-- Modelled from the spec: `lift_free_vars` — shift every free variable
with index `≥ d` up by `k`, where `d` counts the binders passed so far.
Metavariable type slots are opaque and not traversed. -/
def liftAux (k : Nat) : Expr → Nat → Expr
  | .var i, d => if i < d then .var i else .var (i + k)
  | .const n, _ => .const n
  | .app as, d => .app (liftListAux k as d)
  | .lam n dom b, d => .lam n (liftAux k dom d) (liftAux k b (d + 1))
  | .pi n dom b, d => .pi n (liftAux k dom d) (liftAux k b (d + 1))
  | .letE n none v b, d => .letE n none (liftAux k v d) (liftAux k b (d + 1))
  | .letE n (some t) v b, d =>
      .letE n (some (liftAux k t d)) (liftAux k v d) (liftAux k b (d + 1))
  | .type l, _ => .type l
  | .value n t, _ => .value n t
  | .eq a b, d => .eq (liftAux k a d) (liftAux k b d)
  | .mvar i t, _ => .mvar i t

/-- Modelled from the spec: `lift_free_vars` on each element of an
argument list. -/
def liftListAux (k : Nat) : List Expr → Nat → List Expr
  | [], _ => []
  | a :: as, d => liftAux k a d :: liftListAux k as d
end

/-- Modelled from the spec: `lift_free_vars(e, k)` — shift all free
variables of `e` up by `k`. -/
def liftFreeVars (e : Expr) (k : Nat) : Expr := liftAux k e 0

mutual

/-- Modelled from the spec: `closed` at depth `d` — every variable
occurrence is bound, i.e. refers below the cutoff `d`. -/
def closedAux : Expr → Nat → Bool
  | .var i, d => decide (i < d)
  | .const _, _ => true
  | .app as, d => closedListAux as d
  | .lam _ dom b, d => closedAux dom d && closedAux b (d + 1)
  | .pi _ dom b, d => closedAux dom d && closedAux b (d + 1)
  | .letE _ none v b, d => closedAux v d && closedAux b (d + 1)
  | .letE _ (some t) v b, d => closedAux t d && closedAux v d && closedAux b (d + 1)
  | .type _, _ => true
  | .value _ _, _ => true
  | .eq a b, d => closedAux a d && closedAux b d
  | .mvar _ _, _ => true

/-- Modelled from the spec: `closed` on each element of a list. -/
def closedListAux : List Expr → Nat → Bool
  | [], _ => true
  | a :: as, d => closedAux a d && closedListAux as d

end

/-- Modelled from the spec: `closed(e)` — the term has no free variables
at all. -/
def closed (e : Expr) : Bool := closedAux e 0

mutual

/-- Whether the term has a free variable referring into the index window
`[d, d + n)`: at depth `d`, an occurrence of one of the `n` innermost
enclosing binders.  Used to state what a "free reference to the peeled
binders" is. -/
def windowAux (n : Nat) : Expr → Nat → Bool
  | .var i, d => decide (d ≤ i) && decide (i < d + n)
  | .const _, _ => false
  | .app as, d => windowListAux n as d
  | .lam _ dom b, d => windowAux n dom d || windowAux n b (d + 1)
  | .pi _ dom b, d => windowAux n dom d || windowAux n b (d + 1)
  | .letE _ none v b, d => windowAux n v d || windowAux n b (d + 1)
  | .letE _ (some t) v b, d => windowAux n t d || windowAux n v d || windowAux n b (d + 1)
  | .type _, _ => false
  | .value _ _, _ => false
  | .eq a b, d => windowAux n a d || windowAux n b d
  | .mvar _ _, _ => false

/-- Window check on each element of a list. -/
def windowListAux (n : Nat) : List Expr → Nat → Bool
  | [], _ => false
  | a :: as, d => windowAux n a d || windowListAux n as d

end

/-- Whether the term has a free reference to one of the `n` innermost
peeled binders. -/
def hasFreeVarLt (e : Expr) (n : Nat) : Bool := windowAux n e 0

mutual

/-- Lower every free variable (index `≥ d`) by `n`.  This is what a
simultaneous substitution of the `n` innermost binders does to a term that
never mentions those binders. -/
def lowerAux (n : Nat) : Expr → Nat → Expr
  | .var i, d => if i < d then .var i else .var (i - n)
  | .const nm, _ => .const nm
  | .app as, d => .app (lowerListAux n as d)
  | .lam nm dom b, d => .lam nm (lowerAux n dom d) (lowerAux n b (d + 1))
  | .pi nm dom b, d => .pi nm (lowerAux n dom d) (lowerAux n b (d + 1))
  | .letE nm none v b, d => .letE nm none (lowerAux n v d) (lowerAux n b (d + 1))
  | .letE nm (some t) v b, d =>
      .letE nm (some (lowerAux n t d)) (lowerAux n v d) (lowerAux n b (d + 1))
  | .type l, _ => .type l
  | .value nm t, _ => .value nm t
  | .eq a b, d => .eq (lowerAux n a d) (lowerAux n b d)
  | .mvar i t, _ => .mvar i t

/-- Lowering on each element of a list. -/
def lowerListAux (n : Nat) : List Expr → Nat → List Expr
  | [], _ => []
  | a :: as, d => lowerAux n a d :: lowerListAux n as d

end

/-- Lower all free variables of `e` by `n`. -/
def lowerFree (e : Expr) (n : Nat) : Expr := lowerAux n e 0

mutual

/-- Modelled from the spec: `instantiate(e, n, s)` at depth `d` — the
type-level beta substitution.  A free occurrence of the `j`-th innermost
peeled binder (`Var (d + j)` with `j < n`) is replaced by the matching
argument `s[n - 1 - j]` lifted to depth `d` (the outermost peeled binder
matches the first argument); remaining free variables are lowered by `n`. -/
def instAux (s : List Expr) (n : Nat) : Expr → Nat → Expr
  | .var i, d =>
      if i < d then .var i
      else if i < d + n then
        match s.get? (n - 1 - (i - d)) with
        | some a => liftFreeVars a d
        | none => .var (i - n)
      else .var (i - n)
  | .const nm, _ => .const nm
  | .app as, d => .app (instListAux s n as d)
  | .lam nm dom b, d => .lam nm (instAux s n dom d) (instAux s n b (d + 1))
  | .pi nm dom b, d => .pi nm (instAux s n dom d) (instAux s n b (d + 1))
  | .letE nm none v b, d => .letE nm none (instAux s n v d) (instAux s n b (d + 1))
  | .letE nm (some t) v b, d =>
      .letE nm (some (instAux s n t d)) (instAux s n v d) (instAux s n b (d + 1))
  | .type l, _ => .type l
  | .value nm t, _ => .value nm t
  | .eq a b, d => .eq (instAux s n a d) (instAux s n b d)
  | .mvar i t, _ => .mvar i t

/-- Instantiation on each element of a list. -/
def instListAux (s : List Expr) (n : Nat) : List Expr → Nat → List Expr
  | [], _ => []
  | a :: as, d => instAux s n a d :: instListAux s n as d

end

/-- Modelled from the spec: `instantiate(e, n, s)` — substitute the `n`
innermost free variables of `e` by the arguments `s` (`s.length = n`). -/
def instantiate (e : Expr) (n : Nat) (s : List Expr) : Expr := instAux s n e 0

/-- The source's `is_pi`. -/
def isPi : Expr → Bool
  | .pi _ _ _ => true
  | _ => false

/-- The source's `is_type`. -/
def isType : Expr → Bool
  | .type _ => true
  | _ => false

/-- The source's `ty_level` (meaningful on `Type` nodes). -/
def tyLevel : Expr → Level
  | .type l => l
  | _ => 0

/-- The source's `abst_body` (meaningful on abstractions). -/
def abstBody : Expr → Expr
  | .pi _ _ b => b
  | .lam _ _ b => b
  | e => e

/-- The source's argument-list view of an application: a non-application
counts as a single argument slot (`num_args` is 1 on it). -/
def appArgs : Expr → List Expr
  | .app as => as
  | e => [e]

/-- The source's `num_args`. -/
def numArgs (e : Expr) : Nat := (appArgs e).length

/-- Error kinds surfaced by the checker (section 7 of the spec).
`outOfFuel` is an artifact of the embedding: the source's recursion has no
such bound, and every theorem below supplies enough fuel explicitly. -/
inductive Err where
  | typeExpected
  | functionExpected
  | noMetavarType
  | unknownConst
  | untypedConst
  | unboundVar
  | interrupted
  | outOfFuel
deriving DecidableEq

/-- Modelled from the spec: the scoped cache — a stack of scopes, each an
association list from expression (identity in the source, structure here:
on the source's immutable shared nodes a pointer hit is a structural hit)
to inferred type.  The head scope is the innermost one. -/
abbrev Cache := List (List (Expr × Expr))

/-- A cache with a single empty base scope (the state after `clear`). -/
def emptyCache : Cache := [[]]

/-- First association for a key in one scope layer. -/
def assocFind : List (Expr × Expr) → Expr → Option Expr
  | [], _ => none
  | (k, v) :: l, e => if beqE k e then some v else assocFind l e

/-- Find the first entry for a key, scanning the innermost scope first. -/
def cacheFind : Cache → Expr → Option Expr
  | [], _ => none
  | layer :: rest, e =>
    match assocFind layer e with
    | some v => some v
    | none => cacheFind rest e

/-- Insert a binding into the innermost scope (shadowing any older one,
as the source's replacing insert does). -/
def cacheInsert : Cache → Expr → Expr → Cache
  | [], e, t => [[(e, t)]]
  | layer :: rest, e, t => ((e, t) :: layer) :: rest

/-- Push a fresh scope (the source's `cache::mk_scope` on entry). -/
def cachePush (c : Cache) : Cache := [] :: c

/-- Pop the innermost scope, discarding its entries (the source's
`cache::mk_scope` on exit). -/
def cachePop : Cache → Cache
  | [] => []
  | _ :: rest => rest

/-- The source's `get_range` loop: peel one Pi-binder per remaining step;
a non-Pi is normalized and retried once, else `FunctionExpected`; when the
count is exhausted, return the body unchanged if closed, else instantiate
the `m` peeled binders with the argument subexpressions `s`. -/
def getRangeAux (norm : Expr → Context → Expr) (m : Nat) (s : List Expr) :
    Nat → Expr → Context → Except Err Expr
  | 0, t, _ => if closed t then .ok t else .ok (instantiate t m s)
  | n + 1, t, ctx =>
    if isPi t then getRangeAux norm m s n (abstBody t) ctx
    else
      let t' := norm t ctx
      if isPi t' then getRangeAux norm m s n (abstBody t') ctx
      else .error .functionExpected

/-- The source's `get_range(t, e, ctx)`: `t` is the inferred type of the
applied function, `e` the application node; `num_args(e) - 1` binders are
peeled and instantiated with `arg(e, 1), ...`. -/
def getRange (norm : Expr → Context → Expr) (t e : Expr) (ctx : Context) :
    Except Err Expr :=
  getRangeAux norm (numArgs e - 1) ((appArgs e).drop 1) (numArgs e - 1) t ctx

/-- The tail test of `infer_universe`: a `Type` node yields its level, the
boolean sort yields the distinguished bottom level, anything else is
`TypeExpected`. -/
def toLevel : Expr → Except Err Level
  | .type l => .ok l
  | u => if beqE u boolE then .ok 0 else .error .typeExpected

/-- The source's `infer_type`, fuelled.  Parameters: `env` is the global
symbol table (`none`: no object; `some none`: object without a type);
`norm` is the external normalizer oracle; `shared` is the node-sharing
predicate (`is_shared`, a reference count in the source); `intr` is the
interrupt flag observed by `check_interrupted`.  The cache is threaded
through and returned next to the inferred type.  Cheap node kinds are
handled before the interrupt check and never touch the cache; expensive
kinds check the interrupt flag, probe the cache when shared, and insert
their result when shared. -/
def inferType (env : String → Option (Option Expr)) (norm : Expr → Context → Expr)
    (shared : Expr → Bool) (intr : Bool) :
    Nat → Expr → Context → Cache → Except Err (Expr × Cache)
  | 0, _, _, _ => .error .outOfFuel
  | fuel + 1, e, ctx, cache =>
    match e with
    | .mvar _ none => .error .noMetavarType
    | .mvar _ (some t) => .ok (t, cache)
    | .const n =>
      match env n with
      | none => .error .unknownConst
      | some none => .error .untypedConst
      | some (some t) => .ok (t, cache)
    | .eq _ _ => .ok (boolE, cache)
    | .value _ t => .ok (t, cache)
    | .type l => .ok (.type (l + 1), cache)
    | .var i =>
      match lookup ctx i with
      | none => .error .unboundVar
      | some ce =>
        match ce.dom with
        | some d => .ok (d, cache)
        | none =>
          if intr then .error .interrupted
          else
            match (if shared e then cacheFind cache e else none) with
            | some r => .ok (r, cache)
            | none =>
              match ce.body with
              | none => .error .unboundVar
              | some b =>
                match inferType env norm shared intr fuel b (defCtx ctx i) cache with
                | .error err => .error err
                | .ok (t, c) =>
                  let r := liftFreeVars t (ctx.length - (defCtx ctx i).length)
                  .ok (r, if shared e then cacheInsert c e r else c)
    | .app as =>
      if intr then .error .interrupted
      else
        match (if shared e then cacheFind cache e else none) with
        | some r => .ok (r, cache)
        | none =>
          match as with
          | [] => .error .functionExpected
          | f :: _ =>
            match inferType env norm shared intr fuel f ctx cache with
            | .error err => .error err
            | .ok (ft, c) =>
              match getRange norm ft e ctx with
              | .error err => .error err
              | .ok r => .ok (r, if shared e then cacheInsert c e r else c)
    | .lam nm dom b =>
      if intr then .error .interrupted
      else
        match (if shared e then cacheFind cache e else none) with
        | some r => .ok (r, cache)
        | none =>
          match inferType env norm shared intr fuel b (⟨nm, some dom, none⟩ :: ctx)
              (cachePush cache) with
          | .error err => .error err
          | .ok (t, c) =>
            let r := Expr.pi nm dom t
            .ok (r, if shared e then cacheInsert (cachePop c) e r else cachePop c)
    | .pi nm dom b =>
      if intr then .error .interrupted
      else
        match (if shared e then cacheFind cache e else none) with
        | some r => .ok (r, cache)
        | none =>
          match inferType env norm shared intr fuel dom ctx cache with
          | .error err => .error err
          | .ok (t1, c1) =>
            match toLevel (norm t1 ctx) with
            | .error err => .error err
            | .ok l1 =>
              match inferType env norm shared intr fuel b (⟨nm, some dom, none⟩ :: ctx)
                  (cachePush c1) with
              | .error err => .error err
              | .ok (t2, c2) =>
                match toLevel (norm t2 (⟨nm, some dom, none⟩ :: ctx)) with
                | .error err => .error err
                | .ok l2 =>
                  let r := Expr.type (max l1 l2)
                  .ok (r, if shared e then cacheInsert (cachePop c2) e r else cachePop c2)
    | .letE nm t v b =>
      if intr then .error .interrupted
      else
        match (if shared e then cacheFind cache e else none) with
        | some r => .ok (r, cache)
        | none =>
          match inferType env norm shared intr fuel b (⟨nm, t, some v⟩ :: ctx)
              (cachePush cache) with
          | .error err => .error err
          | .ok (r, c) =>
            .ok (r, if shared e then cacheInsert (cachePop c) e r else cachePop c)

/-- The source's `infer_universe`: infer the type, normalize it, and read
off a universe level via `toLevel`. -/
def inferUniverse (env : String → Option (Option Expr)) (norm : Expr → Context → Expr)
    (shared : Expr → Bool) (intr : Bool) (fuel : Nat) (t : Expr) (ctx : Context)
    (cache : Cache) : Except Err (Level × Cache) :=
  match inferType env norm shared intr fuel t ctx cache with
  | .error err => .error err
  | .ok (ty, c) =>
    match toLevel (norm ty ctx) with
    | .error err => .error err
    | .ok l => .ok (l, c)

/-- Modelled from the spec: a substitution as seen at the call boundary —
an object identity and the current value of its monotonically increasing
version counter.  The checker never reads assignments (only the normalizer
would), so only these two observables matter. -/
structure SubstObj where
  id : Nat
  timestamp : Nat
deriving DecidableEq

/-- The checker's cross-call state (the fields of `light_checker::imp`
beyond the fixed environment and normalizer): the cache, the last-seen
context identity (`none` is the default empty context — empty contexts
share one null representation), the last-seen substitution identity
(`none` = null pointer), the recorded version baseline and the interrupt
flag. -/
structure CheckerState where
  cache : Cache
  ctxId : Option Nat
  subst : Option Nat
  substTimestamp : Nat
  interrupted : Bool

/-- The state right after construction. -/
def CheckerState.init : CheckerState :=
  { cache := emptyCache, ctxId := none, subst := none, substTimestamp := 0,
    interrupted := false }

/-- The source's `clear()`: resets the cache, the last-seen context and
the last-seen substitution with its baseline (and the normalizer's own
state, which is not modelled because the normalizer is an oracle here). -/
def CheckerState.clear (st : CheckerState) : CheckerState :=
  { st with cache := emptyCache, ctxId := none, subst := none, substTimestamp := 0 }

/-- The source's `set_ctx`: on a context that is not reference-identical
to the last-seen one, `clear()` and record the new context. -/
def setCtx (cid : Option Nat) (st : CheckerState) : CheckerState :=
  if cid = st.ctxId then st else { st.clear with ctxId := cid }

/-- The source's `set_subst`: same object — clear the cache only when the
version advanced past the baseline (a null object has no version);
different object — record it, clear the cache and take its current
version as the new baseline (0 for null). -/
def setSubst (s : Option SubstObj) (st : CheckerState) : CheckerState :=
  match s with
  | none =>
    if st.subst = none then st
    else { st with subst := none, cache := emptyCache, substTimestamp := 0 }
  | some so =>
    if st.subst = some so.id then
      if st.substTimestamp < so.timestamp then
        { st with cache := emptyCache, substTimestamp := so.timestamp }
      else st
    else { st with subst := some so.id, cache := emptyCache, substTimestamp := so.timestamp }

/-- The source's `set_interrupt` (the propagation to the normalizer is not
modelled because the normalizer is an oracle here). -/
def setInterrupt (flag : Bool) (st : CheckerState) : CheckerState :=
  { st with interrupted := flag }

/-- The state prologue of `operator()`: `set_ctx` then `set_subst`. -/
def callPrologue (cid : Option Nat) (s : Option SubstObj) (st : CheckerState) :
    CheckerState :=
  setSubst s (setCtx cid st)

/-- Follows the spec's words (section 4.1.1): peel one Pi-binder per step;
when the type is not syntactically a Pi, normalize it and retry once, and
fail with `FunctionExpected` when the normalized type is still not a Pi. -/
def peelSteps (norm : Expr → Context → Expr) : Nat → Expr → Context → Except Err Expr
  | 0, t, _ => .ok t
  | n + 1, t, ctx =>
    if isPi t then peelSteps norm n (abstBody t) ctx
    else if isPi (norm t ctx) then peelSteps norm n (abstBody (norm t ctx)) ctx
    else .error .functionExpected

/-- A trivial global symbol table: concrete runs below never look up a
constant. -/
def env0 : String → Option (Option Expr) := fun _ => none

/-- The identity normalizer: a legitimate oracle instance for concrete
runs in which every peeled type is already syntactically a Pi or a sort. -/
def norm0 : Expr → Context → Expr := fun t _ => t

/-- The sharing oracle under which no node is shared. -/
def shared0 : Expr → Bool := fun _ => false

/-- A base type constant for the determinism scenario. -/
def tN : Expr := .const "N"

/-- Declared type of the context entry `a`: `Pi (x y z w : N), Type 7`. -/
def tyA : Expr := .pi "x" tN (.pi "y" tN (.pi "z" tN (.pi "w" tN (.type 7))))

/-- The type of `Z` in the defining context of `b`: three binders left. -/
def tyRa : Expr := .pi "y" tN (.pi "z" tN (.pi "w" tN (.type 7)))

/-- The type of the value of `b`: two binders left. -/
def tyS : Expr := .pi "z" tN (.pi "w" tN (.type 7))

/-- The shared node `Z = Var 0 applied to c0`: under the outer context its
head is `b`, under `b`'s defining context its head is `a`. -/
def zNode : Expr := .app [.var 0, .const "c0"]

/-- The bound value of `b`: `Z` applied to `c1`. -/
def vbNode : Expr := .app [zNode, .const "c1"]

/-- The defining context of `b`: just `a : tyA`. -/
def ctxOne : Context := [⟨"a", some tyA, none⟩]

/-- The outer context: `b` bound to `vbNode` with no declared type, over
`a : tyA`. -/
def ctxTwo : Context := ⟨"b", none, some vbNode⟩ :: ctxOne

/-- The probe expression `Z` applied to `q`, well-typed under `ctxTwo`. -/
def eNode : Expr := .app [zNode, .const "q"]

/-- The sharing oracle marking exactly `Z` as shared (it has two parents:
`vbNode` and `eNode`). -/
def sharedZ : Expr → Bool := fun x => beqE x zNode

/-- Structural equality against a `Type` node decides propositional
equality. -/
theorem beqE_type_iff (t : Expr) (l : Level) : beqE t (.type l) = true ↔ t = .type l := by
  cases t <;> simp [beqE]

/-- Structural equality against the boolean sort decides propositional
equality (the source's `u == Bool` test). -/
theorem beqE_boolE_iff (u : Expr) : beqE u boolE = true ↔ u = boolE := by
  cases u <;> simp [beqE, boolE, beqE_type_iff]

/-- On a term that is neither a sort nor the boolean sort, `toLevel`
fails with `TypeExpected`. -/
theorem toLevel_typeExpected (u : Expr) (h1 : isType u = false) (h2 : u ≠ boolE) :
    toLevel u = .error .typeExpected := by
  have hb : beqE u boolE = false := by
    cases hbe : beqE u boolE
    · rfl
    · exact absurd ((beqE_boolE_iff u).1 hbe) h2
  cases u <;> simp_all [toLevel, isType]

/-- Decomposition of a successful `inferUniverse` run. -/
theorem inferUniverse_ok_elim {env : String → Option (Option Expr)}
    {norm : Expr → Context → Expr} {shared : Expr → Bool} {intr : Bool} {fuel : Nat}
    {t : Expr} {ctx : Context} {cache : Cache} {l : Level} {c : Cache}
    (h : inferUniverse env norm shared intr fuel t ctx cache = .ok (l, c)) :
    ∃ ty, inferType env norm shared intr fuel t ctx cache = .ok (ty, c) ∧
      toLevel (norm ty ctx) = .ok l := by
  unfold inferUniverse at h
  cases hI : inferType env norm shared intr fuel t ctx cache with
  | error err => rw [hI] at h; cases h
  | ok p =>
    obtain ⟨ty, c'⟩ := p
    rw [hI] at h
    dsimp only at h
    cases hT : toLevel (norm ty ctx) with
    | error err => rw [hT] at h; cases h
    | ok l' =>
      rw [hT] at h
      dsimp only at h
      obtain ⟨rfl, rfl⟩ : l' = l ∧ c' = c := by
        have := h
        injection this with h'
        injection h' with h1 h2
        exact ⟨h1, h2⟩
      exact ⟨ty, rfl, hT⟩

mutual

/-- On a term with no free reference into the window of the `n` peeled
binders, `instantiate` only renumbers: it equals the plain lowering. -/
theorem instAux_eq_lowerAux (s : List Expr) (n : Nat) :
    ∀ (t : Expr) (d : Nat), windowAux n t d = false → instAux s n t d = lowerAux n t d
  | .var i, d, h => by
      by_cases hlt : i < d
      · simp [instAux, lowerAux, hlt]
      · have hge : ¬ i < d + n := by
          simp only [windowAux, Bool.and_eq_false_iff, decide_eq_false_iff_not, not_le,
            not_lt] at h
          omega
        simp [instAux, lowerAux, hlt, hge]
  | .const nm, _, _ => rfl
  | .app as, d, h => by
      simp only [windowAux] at h
      simp only [instAux, lowerAux, instListAux_eq_lowerListAux s n as d h]
  | .lam nm dom b, d, h => by
      simp only [windowAux, Bool.or_eq_false_iff] at h
      simp only [instAux, lowerAux, instAux_eq_lowerAux s n dom d h.1,
        instAux_eq_lowerAux s n b (d + 1) h.2]
  | .pi nm dom b, d, h => by
      simp only [windowAux, Bool.or_eq_false_iff] at h
      simp only [instAux, lowerAux, instAux_eq_lowerAux s n dom d h.1,
        instAux_eq_lowerAux s n b (d + 1) h.2]
  | .letE nm none v b, d, h => by
      simp only [windowAux, Bool.or_eq_false_iff] at h
      simp only [instAux, lowerAux, instAux_eq_lowerAux s n v d h.1,
        instAux_eq_lowerAux s n b (d + 1) h.2]
  | .letE nm (some t) v b, d, h => by
      simp only [windowAux, Bool.or_eq_false_iff] at h
      simp only [instAux, lowerAux, instAux_eq_lowerAux s n t d h.1.1,
        instAux_eq_lowerAux s n v d h.1.2, instAux_eq_lowerAux s n b (d + 1) h.2]
  | .type l, _, _ => rfl
  | .value nm t, _, _ => rfl
  | .eq a b, d, h => by
      simp only [windowAux, Bool.or_eq_false_iff] at h
      simp only [instAux, lowerAux, instAux_eq_lowerAux s n a d h.1,
        instAux_eq_lowerAux s n b d h.2]
  | .mvar i t, _, _ => rfl

/-- List version of `instAux_eq_lowerAux`. -/
theorem instListAux_eq_lowerListAux (s : List Expr) (n : Nat) :
    ∀ (as : List Expr) (d : Nat), windowListAux n as d = false →
      instListAux s n as d = lowerListAux n as d
  | [], _, _ => rfl
  | a :: as, d, h => by
      simp only [windowListAux, Bool.or_eq_false_iff] at h
      simp only [instListAux, lowerListAux, instAux_eq_lowerAux s n a d h.1,
        instListAux_eq_lowerListAux s n as d h.2]

end

mutual

/-- Lowering is the identity on a term closed at the cutoff. -/
theorem lowerAux_closed_id (n : Nat) :
    ∀ (t : Expr) (d : Nat), closedAux t d = true → lowerAux n t d = t
  | .var i, d, h => by
      simp only [closedAux, decide_eq_true_eq] at h
      simp [lowerAux, h]
  | .const nm, _, _ => rfl
  | .app as, d, h => by
      simp only [closedAux] at h
      simp only [lowerAux, lowerListAux_closed_id n as d h]
  | .lam nm dom b, d, h => by
      simp only [closedAux, Bool.and_eq_true] at h
      simp only [lowerAux, lowerAux_closed_id n dom d h.1, lowerAux_closed_id n b (d + 1) h.2]
  | .pi nm dom b, d, h => by
      simp only [closedAux, Bool.and_eq_true] at h
      simp only [lowerAux, lowerAux_closed_id n dom d h.1, lowerAux_closed_id n b (d + 1) h.2]
  | .letE nm none v b, d, h => by
      simp only [closedAux, Bool.and_eq_true] at h
      simp only [lowerAux, lowerAux_closed_id n v d h.1, lowerAux_closed_id n b (d + 1) h.2]
  | .letE nm (some t) v b, d, h => by
      simp only [closedAux, Bool.and_eq_true] at h
      simp only [lowerAux, lowerAux_closed_id n t d h.1.1, lowerAux_closed_id n v d h.1.2,
        lowerAux_closed_id n b (d + 1) h.2]
  | .type l, _, _ => rfl
  | .value nm t, _, _ => rfl
  | .eq a b, d, h => by
      simp only [closedAux, Bool.and_eq_true] at h
      simp only [lowerAux, lowerAux_closed_id n a d h.1, lowerAux_closed_id n b d h.2]
  | .mvar i t, _, _ => rfl

/-- List version of `lowerAux_closed_id`. -/
theorem lowerListAux_closed_id (n : Nat) :
    ∀ (as : List Expr) (d : Nat), closedListAux as d = true → lowerListAux n as d = as
  | [], _, _ => rfl
  | a :: as, d, h => by
      simp only [closedListAux, Bool.and_eq_true] at h
      simp only [lowerListAux, lowerAux_closed_id n a d h.1, lowerListAux_closed_id n as d h.2]

end

/-- The implementation loop of `get_range` refines the spec's description:
perform exactly the requested number of peeling steps and then apply the
closed-or-instantiate tail to the remaining body. -/
theorem getRangeAux_eq_peelSteps (norm : Expr → Context → Expr) (m : Nat) (s : List Expr) :
    ∀ (n : Nat) (t : Expr) (ctx : Context),
      getRangeAux norm m s n t ctx =
        match peelSteps norm n t ctx with
        | .ok t' => if closed t' then .ok t' else .ok (instantiate t' m s)
        | .error err => .error err
  | 0, t, ctx => by simp [getRangeAux, peelSteps]
  | n + 1, t, ctx => by
      by_cases h1 : isPi t = true
      · simp only [getRangeAux, peelSteps, h1, if_true]
        exact getRangeAux_eq_peelSteps norm m s n (abstBody t) ctx
      · by_cases h2 : isPi (norm t ctx) = true
        · simp only [getRangeAux, peelSteps, h1, h2, if_true, Bool.false_eq_true, if_false]
          exact getRangeAux_eq_peelSteps norm m s n (abstBody (norm t ctx)) ctx
        · simp only [getRangeAux, peelSteps, h1, h2, Bool.false_eq_true, if_false]

/-- The `get_range` loop never reports an interruption. -/
theorem getRangeAux_ne_interrupted (norm : Expr → Context → Expr) (m : Nat) (s : List Expr) :
    ∀ (n : Nat) (t : Expr) (ctx : Context),
      getRangeAux norm m s n t ctx ≠ .error .interrupted
  | 0, t, ctx => by
      simp only [getRangeAux]
      split <;> simp
  | n + 1, t, ctx => by
      simp only [getRangeAux]
      split
      · exact getRangeAux_ne_interrupted norm m s n _ ctx
      · split
        · exact getRangeAux_ne_interrupted norm m s n _ ctx
        · simp

/-- `toLevel` never reports an interruption. -/
theorem toLevel_ne_interrupted (u : Expr) : toLevel u ≠ .error .interrupted := by
  cases u <;> simp only [toLevel] <;> (try split) <;> simp

/-- `get_range` never reports an interruption. -/
theorem getRange_ne_interrupted (norm : Expr → Context → Expr) (t e : Expr) (ctx : Context) :
    getRange norm t e ctx ≠ .error .interrupted :=
  getRangeAux_ne_interrupted norm _ _ _ t ctx

/-- Reduction of a literal-false conditional. -/
theorem if_false_eq {α : Sort _} (a b : α) : (if (false : Bool) then a else b) = b := rfl

/-- With the interrupt flag unset, inference never reports an
interruption, whatever else it does. -/
theorem inferType_false_ne_interrupted (env : String → Option (Option Expr))
    (norm : Expr → Context → Expr) (shared : Expr → Bool) :
    ∀ (fuel : Nat) (e : Expr) (ctx : Context) (cache : Cache),
      inferType env norm shared false fuel e ctx cache ≠ .error .interrupted := by
  intro fuel
  induction fuel with
  | zero => intro e ctx cache; simp [inferType]
  | succ n ih =>
    intro e ctx cache
    cases e with
    | mvar id ty => cases ty <;> simp [inferType]
    | const nm =>
      simp only [inferType]
      split <;> simp
    | eq a b => simp [inferType]
    | value nm t => simp [inferType]
    | type l => simp [inferType]
    | var i =>
      simp only [inferType, if_false_eq]
      split
      · simp
      · split
        · simp
        · split
          · simp
          · split
            · simp
            · split
              · rename_i err heq
                intro hc
                injection hc with h
                subst h
                exact ih _ _ _ heq
              · simp
    | app as =>
      simp only [inferType, if_false_eq]
      split
      · simp
      · split
        · simp
        · split
          · rename_i err heq
            intro hc
            injection hc with h
            subst h
            exact ih _ _ _ heq
          · split
            · rename_i err heq
              intro hc
              injection hc with h
              subst h
              exact absurd heq (getRange_ne_interrupted norm _ _ ctx)
            · simp
    | lam nm dom b =>
      simp only [inferType, if_false_eq]
      split
      · simp
      · split
        · rename_i err heq
          intro hc
          injection hc with h
          subst h
          exact ih _ _ _ heq
        · simp
    | pi nm dom b =>
      simp only [inferType, if_false_eq]
      split
      · simp
      · split
        · rename_i err heq
          intro hc
          injection hc with h
          subst h
          exact ih _ _ _ heq
        · split
          · rename_i err heq
            intro hc
            injection hc with h
            subst h
            exact absurd heq (toLevel_ne_interrupted _)
          · split
            · rename_i err heq
              intro hc
              injection hc with h
              subst h
              exact ih _ _ _ heq
            · split
              · rename_i err heq
                intro hc
                injection hc with h
                subst h
                exact absurd heq (toLevel_ne_interrupted _)
              · simp
    | letE nm t v b =>
      simp only [inferType, if_false_eq]
      split
      · simp
      · split
        · rename_i err heq
          intro hc
          injection hc with h
          subst h
          exact ih _ _ _ heq
        · simp

/-- Claim C1, counterexample: after peeling, a body with no free
reference to the peeled binder (`Var 1` against one peeled binder) is not
returned unchanged — `get_range` tests full closedness, and the
instantiate path renumbers the outer reference `Var 1` down to `Var 0`. -/
theorem getRange_not_unchanged_on_open_body :
    hasFreeVarLt (.var 1) 1 = false ∧
    getRange norm0 (.pi "x" tN (.var 1)) (.app [.const "f", .const "a0"]) [] =
      .ok (.var 0) ∧
    (Except.ok (Expr.var 0) : Except Err Expr) ≠ .ok (.var 1) :=
  ⟨rfl, rfl, by simp⟩

/-- Claim C1, amended: after the peeling steps, `get_range` returns the
remaining body unchanged exactly when it is fully closed; otherwise it
returns `instantiate(body, n-1, args)`.  When the body has no free
reference to the peeled binders the instantiation degenerates to a pure
renumbering of the remaining free variables (so the body is returned
literally unchanged only when closed), and on a closed body the
renumbering is the identity, so the closed fast path is a pure
optimization. -/
theorem getRange_closed_or_instantiate (norm : Expr → Context → Expr) :
    (∀ (m : Nat) (s : List Expr) (t : Expr) (ctx : Context),
        getRangeAux norm m s 0 t ctx =
          if closed t then .ok t else .ok (instantiate t m s)) ∧
    (∀ (m : Nat) (s : List Expr) (t : Expr),
        hasFreeVarLt t m = false → instantiate t m s = lowerFree t m) ∧
    (∀ (t : Expr), closed t = true → ∀ (m : Nat), lowerFree t m = t) :=
  ⟨fun _ _ _ _ => rfl,
   fun m s t h => instAux_eq_lowerAux s m t 0 h,
   fun t h m => lowerAux_closed_id m t 0 h⟩

/-- Claim C1, witness for the amended statement at concrete inputs. -/
theorem getRange_closed_or_instantiate_witness :
    getRangeAux norm0 1 [.const "a0"] 0 (.var 1) [] = .ok (instantiate (.var 1) 1 [.const "a0"]) ∧
    (hasFreeVarLt (.var 1) 1 = false ∧
      instantiate (.var 1) 1 [.const "a0"] = lowerFree (.var 1) 1) ∧
    (closed tN = true ∧ lowerFree tN 3 = tN) := by
  refine ⟨?_, ⟨rfl, ?_⟩, ⟨rfl, ?_⟩⟩
  · exact (getRange_closed_or_instantiate norm0).1 1 [.const "a0"] (.var 1) []
  · exact (getRange_closed_or_instantiate norm0).2.1 1 [.const "a0"] (.var 1) rfl
  · exact (getRange_closed_or_instantiate norm0).2.2 tN rfl 3

/-- Claim C5: the `get_range` loop performs exactly `num_args(e) - 1`
peeling steps and then the closed-or-instantiate tail; at each step a
syntactic Pi advances to its body, otherwise the type is normalized and
retried once, failing with `FunctionExpected` exactly when the normalized
type is still not a Pi. -/
theorem getRange_peeling_steps (norm : Expr → Context → Expr) :
    (∀ (m : Nat) (s : List Expr) (n : Nat) (t : Expr) (ctx : Context),
        getRangeAux norm m s n t ctx =
          match peelSteps norm n t ctx with
          | .ok t' => if closed t' then .ok t' else .ok (instantiate t' m s)
          | .error err => .error err) ∧
    (∀ (n : Nat) (t : Expr) (ctx : Context), isPi t = true →
        peelSteps norm (n + 1) t ctx = peelSteps norm n (abstBody t) ctx) ∧
    (∀ (n : Nat) (t : Expr) (ctx : Context), isPi t = false →
        (isPi (norm t ctx) = true →
          peelSteps norm (n + 1) t ctx = peelSteps norm n (abstBody (norm t ctx)) ctx) ∧
        (isPi (norm t ctx) = false →
          peelSteps norm (n + 1) t ctx = .error .functionExpected)) ∧
    (∀ (t e : Expr) (ctx : Context),
        getRange norm t e ctx =
          getRangeAux norm (numArgs e - 1) ((appArgs e).drop 1) (numArgs e - 1) t ctx) := by
  refine ⟨fun m s n t ctx => getRangeAux_eq_peelSteps norm m s n t ctx, ?_, ?_,
    fun _ _ _ => rfl⟩
  · intro n t ctx h
    simp [peelSteps, h]
  · intro n t ctx h
    constructor
    · intro h2
      simp [peelSteps, h, h2]
    · intro h2
      simp [peelSteps, h, h2]

/-- Claim C5, witness at concrete inputs: a two-argument application
peels once; a syntactic Pi advances; a non-Pi that normalizes to a non-Pi
fails with `FunctionExpected`. -/
theorem getRange_peeling_steps_witness :
    getRangeAux norm0 1 [.const "a0"] 1 (.pi "x" tN tN) [] =
      (match peelSteps norm0 1 (.pi "x" tN tN) [] with
       | .ok t' => if closed t' then .ok t' else .ok (instantiate t' 1 [.const "a0"])
       | .error err => .error err) ∧
    peelSteps norm0 1 (.pi "x" tN tN) [] = peelSteps norm0 0 (abstBody (.pi "x" tN tN)) [] ∧
    peelSteps norm0 1 tN [] = .error .functionExpected ∧
    getRange norm0 (.pi "x" tN tN) (.app [.const "f", .const "a0"]) [] =
      getRangeAux norm0 1 [.const "a0"] 1 (.pi "x" tN tN) [] := by
  refine ⟨(getRange_peeling_steps norm0).1 1 [.const "a0"] 1 (.pi "x" tN tN) [], ?_, ?_, ?_⟩
  · exact (getRange_peeling_steps norm0).2.1 0 (.pi "x" tN tN) [] rfl
  · exact ((getRange_peeling_steps norm0).2.2.1 0 tN [] rfl).2 rfl
  · exact (getRange_peeling_steps norm0).2.2.2 (.pi "x" tN tN) (.app [.const "f", .const "a0"]) []

/-- Claim C7, counterexample: `clear()` does not reset the interrupt
flag — after `set_interrupt(true)` followed by `clear()` the flag still
reads `true`, while the initial post-construction value is `false`. -/
theorem clear_leaves_interrupt_flag :
    (CheckerState.clear (setInterrupt true CheckerState.init)).interrupted = true ∧
    CheckerState.init.interrupted = false :=
  ⟨rfl, rfl⟩

/-- Claim C7, amended: `clear()` unconditionally resets the cache, the
last-seen context reference and the last-seen substitution reference and
version baseline to their initial post-construction values, but leaves
the interrupt flag unchanged (only `set_interrupt` writes it). -/
theorem clear_resets_state_except_interrupt (st : CheckerState) :
    CheckerState.clear st =
      { cache := emptyCache, ctxId := none, subst := none, substTimestamp := 0,
        interrupted := st.interrupted } :=
  rfl

/-- Claim C7, witness for the amended statement on a concrete dirty
state. -/
theorem clear_resets_state_except_interrupt_witness :
    CheckerState.clear ⟨[[(tN, tN)]], some 4, some 9, 3, true⟩ =
      { cache := emptyCache, ctxId := none, subst := none, substTimestamp := 0,
        interrupted := (⟨[[(tN, tN)]], some 4, some 9, 3, true⟩ : CheckerState).interrupted } :=
  clear_resets_state_except_interrupt ⟨[[(tN, tN)]], some 4, some 9, 3, true⟩

/-- Claim C9: inferring a sort returns the next sort up, for every level,
context, cache and interrupt state (the `Type` case is cheap tier). -/
theorem inferType_type_rule (env : String → Option (Option Expr))
    (norm : Expr → Context → Expr) (shared : Expr → Bool) (intr : Bool)
    (fuel : Nat) (l : Level) (ctx : Context) (cache : Cache) :
    inferType env norm shared intr (fuel + 1) (.type l) ctx cache =
      .ok (.type (l + 1), cache) :=
  rfl

/-- Claim C9, witness at a concrete level, context and cache. -/
theorem inferType_type_rule_witness :
    inferType env0 norm0 shared0 false 1 (.type 0) [] emptyCache =
      .ok (.type 1, emptyCache) :=
  inferType_type_rule env0 norm0 shared0 false 0 0 [] emptyCache

/-- Claim C2: the call prologue (`set_ctx` then `set_subst`) clears the
whole cache whenever the supplied context is not reference-identical to
the last-seen one, the supplied substitution is a different object, or it
is the same object with an advanced version counter; the new (context
identity, substitution identity, version baseline) triple is recorded, so
such a call proceeds from an empty cache and can only consult entries it
computes itself under the new triple. -/
theorem prologue_clears_cache_on_triple_change (cid : Option Nat) (s : Option SubstObj)
    (st : CheckerState)
    (h : cid ≠ st.ctxId ∨ s.map SubstObj.id ≠ st.subst ∨
      ∃ so, s = some so ∧ st.subst = some so.id ∧ st.substTimestamp < so.timestamp) :
    (callPrologue cid s st).cache = emptyCache ∧
    (callPrologue cid s st).ctxId = cid ∧
    (callPrologue cid s st).subst = s.map SubstObj.id ∧
    (callPrologue cid s st).substTimestamp =
      (match s with | none => 0 | some so => so.timestamp) := by
  by_cases hc : cid = st.ctxId
  · cases s with
    | none =>
      have hsub : ¬ st.subst = none := by
        rcases h with h | h | ⟨so, hso, _⟩
        · exact absurd hc h
        · intro hn; exact h (by simp [hn])
        · cases hso
      simp [callPrologue, setCtx, setSubst, hc, hsub]
    | some so =>
      by_cases hs : st.subst = some so.id
      · have hts : st.substTimestamp < so.timestamp := by
          rcases h with h | h | ⟨so', hso', _, hts⟩
          · exact absurd hc h
          · exact absurd hs (by simpa using h.symm)
          · injection hso' with h'
            subst h'
            exact hts
        simp [callPrologue, setCtx, setSubst, hc, hs, hts]
      · simp [callPrologue, setCtx, setSubst, hc, hs]
  · cases s with
    | none => simp [callPrologue, setCtx, setSubst, CheckerState.clear, hc]
    | some so => simp [callPrologue, setCtx, setSubst, CheckerState.clear, hc]

/-- Claim C2, witness: same context object, same substitution object, but
its version counter advanced from baseline 5 to 6 — the cache is cleared
and the new triple recorded. -/
theorem prologue_clears_cache_on_triple_change_witness :
    (callPrologue (some 1) (some ⟨2, 6⟩) ⟨[[(tN, tN)]], some 1, some 2, 5, false⟩).cache =
      emptyCache ∧
    (callPrologue (some 1) (some ⟨2, 6⟩) ⟨[[(tN, tN)]], some 1, some 2, 5, false⟩).ctxId =
      some 1 ∧
    (callPrologue (some 1) (some ⟨2, 6⟩) ⟨[[(tN, tN)]], some 1, some 2, 5, false⟩).subst =
      Option.map SubstObj.id (some ⟨2, 6⟩) ∧
    (callPrologue (some 1) (some ⟨2, 6⟩) ⟨[[(tN, tN)]], some 1, some 2, 5, false⟩).substTimestamp =
      6 :=
  prologue_clears_cache_on_triple_change (some 1) (some ⟨2, 6⟩)
    ⟨[[(tN, tN)]], some 1, some 2, 5, false⟩
    (Or.inr (Or.inr ⟨⟨2, 6⟩, rfl, rfl, by decide⟩))

/-- Claim C3: a Pi node infers to the sort at the max of the domain's and
the body's universe levels (the body under the context extended with the
binder, in a fresh cache scope popped afterwards), and universe inference
reads a sort's level off the normalized type, maps the boolean sort to
the distinguished bottom level, and otherwise fails with `TypeExpected`. -/
theorem inferType_pi_universe_rule (env : String → Option (Option Expr))
    (norm : Expr → Context → Expr) (shared : Expr → Bool) :
    (∀ (fuel : Nat) (nm : String) (dom body : Expr) (ctx : Context) (cache : Cache)
        (l1 : Level) (c1 : Cache) (l2 : Level) (c2 : Cache),
        (if shared (Expr.pi nm dom body) then cacheFind cache (Expr.pi nm dom body)
          else none) = none →
        inferUniverse env norm shared false fuel dom ctx cache = .ok (l1, c1) →
        inferUniverse env norm shared false fuel body (⟨nm, some dom, none⟩ :: ctx)
          (cachePush c1) = .ok (l2, c2) →
        inferType env norm shared false (fuel + 1) (.pi nm dom body) ctx cache =
          .ok (.type (max l1 l2),
            if shared (Expr.pi nm dom body) then
              cacheInsert (cachePop c2) (Expr.pi nm dom body) (.type (max l1 l2))
            else cachePop c2)) ∧
    (∀ (fuel : Nat) (t : Expr) (ctx : Context) (cache : Cache) (ty : Expr) (c : Cache),
        inferType env norm shared false fuel t ctx cache = .ok (ty, c) →
        (∀ l : Level, norm ty ctx = .type l →
          inferUniverse env norm shared false fuel t ctx cache = .ok (l, c)) ∧
        (norm ty ctx = boolE →
          inferUniverse env norm shared false fuel t ctx cache = .ok (0, c)) ∧
        (isType (norm ty ctx) = false → norm ty ctx ≠ boolE →
          inferUniverse env norm shared false fuel t ctx cache = .error .typeExpected)) := by
  constructor
  · intro fuel nm dom body ctx cache l1 c1 l2 c2 hprobe h1 h2
    obtain ⟨ty1, hI1, hT1⟩ := inferUniverse_ok_elim h1
    obtain ⟨ty2, hI2, hT2⟩ := inferUniverse_ok_elim h2
    simp only [inferType, if_false_eq, hprobe, hI1, hT1, hI2, hT2]
  · intro fuel t ctx cache ty c h
    refine ⟨?_, ?_, ?_⟩
    · intro l hl
      unfold inferUniverse
      rw [h]
      dsimp only
      rw [hl]
      rfl
    · intro hb
      unfold inferUniverse
      rw [h]
      dsimp only
      rw [hb]
      rfl
    · intro hnt hnb
      unfold inferUniverse
      rw [h]
      dsimp only
      rw [toLevel_typeExpected _ hnt hnb]

/-- Claim C3, witness: `Pi (x : Type 0), Type 0` infers to `Type 1`, and
a term of the boolean sort (an equation) has universe level 0. -/
theorem inferType_pi_universe_rule_witness :
    inferType env0 norm0 shared0 false 4 (.pi "x" (.type 0) (.type 0)) [] emptyCache =
      .ok (.type 1, emptyCache) ∧
    inferUniverse env0 norm0 shared0 false 4 (.eq tN tN) [] emptyCache = .ok (0, emptyCache) := by
  constructor
  · exact (inferType_pi_universe_rule env0 norm0 shared0).1 3 "x" (.type 0) (.type 0) []
      emptyCache 1 emptyCache 1 (cachePush emptyCache) rfl rfl rfl
  · exact ((inferType_pi_universe_rule env0 norm0 shared0).2 4 (.eq tN tN) [] emptyCache boolE
      emptyCache rfl).2.1 rfl

/-- Claim C4: a variable whose context entry carries an explicit domain
returns that domain as-is, with no recursion, no lift and no cache
traffic, under any interrupt state; a variable without one chases to the
defining entry's bound value in the shorter defining context, infers
there, and lifts the result by the context-size difference. -/
theorem inferType_var_rule (env : String → Option (Option Expr))
    (norm : Expr → Context → Expr) (shared : Expr → Bool) :
    (∀ (fuel : Nat) (intr : Bool) (i : Nat) (ctx : Context) (cache : Cache) (ce : CEntry)
        (d : Expr), lookup ctx i = some ce → ce.dom = some d →
        inferType env norm shared intr (fuel + 1) (.var i) ctx cache = .ok (d, cache)) ∧
    (∀ (fuel i : Nat) (ctx : Context) (cache : Cache) (ce : CEntry) (b t : Expr) (c : Cache),
        lookup ctx i = some ce → ce.dom = none → ce.body = some b →
        (if shared (Expr.var i) then cacheFind cache (Expr.var i) else none) = none →
        inferType env norm shared false fuel b (defCtx ctx i) cache = .ok (t, c) →
        inferType env norm shared false (fuel + 1) (.var i) ctx cache =
          .ok (liftFreeVars t (ctx.length - (defCtx ctx i).length),
            if shared (Expr.var i) then
              cacheInsert c (Expr.var i)
                (liftFreeVars t (ctx.length - (defCtx ctx i).length))
            else c)) := by
  constructor
  · intro fuel intr i ctx cache ce d hlk hdom
    simp only [inferType, hlk, hdom]
  · intro fuel i ctx cache ce b t c hlk hdom hbody hprobe hrec
    simp only [inferType, hlk, hdom, if_false_eq, hprobe, hbody, hrec]

/-- Claim C4, witness: a declared `x : Type 0` is returned as-is (even
under an interrupt); an undeclared `b := Type 3` chases to the empty
defining context, infers `Type 4` there and lifts it by the size
difference 1. -/
theorem inferType_var_rule_witness :
    inferType env0 norm0 shared0 true 1 (.var 0) [⟨"x", some (.type 0), none⟩] emptyCache =
      .ok (.type 0, emptyCache) ∧
    inferType env0 norm0 shared0 false 2 (.var 0) [⟨"b", none, some (.type 3)⟩] emptyCache =
      .ok (.type 4, emptyCache) := by
  constructor
  · exact (inferType_var_rule env0 norm0 shared0).1 0 true 0 _ emptyCache
      ⟨"x", some (.type 0), none⟩ (.type 0) rfl rfl
  · exact (inferType_var_rule env0 norm0 shared0).2 1 0 _ emptyCache
      ⟨"b", none, some (.type 3)⟩ (.type 3) (.type 4) emptyCache rfl rfl rfl rfl rfl

/-- Claim C6: the cache is not transparent.  In one checker session at a
fixed context, substitution and substitution version (no clearing occurs
between calls), inferring `eNode = Z q` from a cold cache yields `Type 7`,
but after a prior call on `Var 0` — which chases to `b`'s bound value in
the shorter defining context and caches the shared node `Z` there without
any scope guard — the same call yields `Pi (z w : N), Type 7`: two infer
calls on identical inputs return different types. -/
theorem cache_breaks_determinism :
    (inferType env0 norm0 sharedZ false 20 eNode ctxTwo emptyCache).map Prod.fst =
      .ok (.type 7) ∧
    inferType env0 norm0 sharedZ false 20 (.var 0) ctxTwo emptyCache =
      .ok (tyS, [[(zNode, tyRa)]]) ∧
    (inferType env0 norm0 sharedZ false 20 eNode ctxTwo [[(zNode, tyRa)]]).map Prod.fst =
      .ok tyS ∧
    Expr.type 7 ≠ tyS :=
  ⟨rfl, rfl, rfl, by simp [tyS]⟩

/-- Claim C8: with the interrupt flag set, dispatching on any
expensive-tier node (App, Lambda, Pi, Let, or a Var without an explicit
domain) fails with `Interrupted` at that step, before any recursion (the
statements hold at every fuel, including fuel 1 where any recursive call
could only report fuel exhaustion); with the flag unset, no run ever
reports `Interrupted`. -/
theorem interrupt_fails_expensive_tier (env : String → Option (Option Expr))
    (norm : Expr → Context → Expr) (shared : Expr → Bool) :
    (∀ (fuel : Nat) (as : List Expr) (ctx : Context) (cache : Cache),
        inferType env norm shared true (fuel + 1) (.app as) ctx cache = .error .interrupted) ∧
    (∀ (fuel : Nat) (nm : String) (d b : Expr) (ctx : Context) (cache : Cache),
        inferType env norm shared true (fuel + 1) (.lam nm d b) ctx cache =
          .error .interrupted) ∧
    (∀ (fuel : Nat) (nm : String) (d b : Expr) (ctx : Context) (cache : Cache),
        inferType env norm shared true (fuel + 1) (.pi nm d b) ctx cache =
          .error .interrupted) ∧
    (∀ (fuel : Nat) (nm : String) (t? : Option Expr) (v b : Expr) (ctx : Context)
        (cache : Cache),
        inferType env norm shared true (fuel + 1) (.letE nm t? v b) ctx cache =
          .error .interrupted) ∧
    (∀ (fuel i : Nat) (ctx : Context) (cache : Cache) (ce : CEntry),
        lookup ctx i = some ce → ce.dom = none →
        inferType env norm shared true (fuel + 1) (.var i) ctx cache = .error .interrupted) ∧
    (∀ (fuel : Nat) (e : Expr) (ctx : Context) (cache : Cache),
        inferType env norm shared false fuel e ctx cache ≠ .error .interrupted) := by
  refine ⟨fun _ _ _ _ => rfl, fun _ _ _ _ _ _ => rfl, fun _ _ _ _ _ _ => rfl,
    fun _ _ _ _ _ _ _ => rfl, ?_, inferType_false_ne_interrupted env norm shared⟩
  intro fuel i ctx cache ce hlk hdom
  simp only [inferType, hlk, hdom]
  simp

/-- Claim C8, witness: an undeclared variable fails with `Interrupted`
under the flag even at fuel 1 (so before any recursion), and a Lambda run
with the flag reset does not report `Interrupted`. -/
theorem interrupt_fails_expensive_tier_witness :
    inferType env0 norm0 shared0 true 1 (.var 0) [⟨"b", none, some (.type 3)⟩] emptyCache =
      .error .interrupted ∧
    inferType env0 norm0 shared0 false 5 (.lam "x" tN (.var 0)) [] emptyCache ≠
      .error .interrupted := by
  constructor
  · exact (interrupt_fails_expensive_tier env0 norm0 shared0).2.2.2.2.1 0 0 _ emptyCache
      ⟨"b", none, some (.type 3)⟩ rfl rfl
  · exact (interrupt_fails_expensive_tier env0 norm0 shared0).2.2.2.2.2 5
      (.lam "x" tN (.var 0)) [] emptyCache

/-- Claim C10: every cheap-tier node — MetaVar, Constant, Eq, Value,
Type, and a Var whose entry carries an explicit domain — infers to the
same result whatever the interrupt flag says, and never reports
`Interrupted` (the interrupt check is reached only on expensive-tier
dispatch). -/
theorem cheap_tier_ignores_interrupt (env : String → Option (Option Expr))
    (norm : Expr → Context → Expr) (shared : Expr → Bool) :
    (∀ (fuel : Nat) (intr : Bool) (id : Nat) (ty : Option Expr) (ctx : Context)
        (cache : Cache),
        inferType env norm shared intr (fuel + 1) (.mvar id ty) ctx cache =
          inferType env norm shared false (fuel + 1) (.mvar id ty) ctx cache ∧
        inferType env norm shared intr (fuel + 1) (.mvar id ty) ctx cache ≠
          .error .interrupted) ∧
    (∀ (fuel : Nat) (intr : Bool) (nm : String) (ctx : Context) (cache : Cache),
        inferType env norm shared intr (fuel + 1) (.const nm) ctx cache =
          inferType env norm shared false (fuel + 1) (.const nm) ctx cache ∧
        inferType env norm shared intr (fuel + 1) (.const nm) ctx cache ≠
          .error .interrupted) ∧
    (∀ (fuel : Nat) (intr : Bool) (a b : Expr) (ctx : Context) (cache : Cache),
        inferType env norm shared intr (fuel + 1) (.eq a b) ctx cache = .ok (boolE, cache) ∧
        inferType env norm shared intr (fuel + 1) (.eq a b) ctx cache ≠
          .error .interrupted) ∧
    (∀ (fuel : Nat) (intr : Bool) (nm : String) (t : Expr) (ctx : Context) (cache : Cache),
        inferType env norm shared intr (fuel + 1) (.value nm t) ctx cache = .ok (t, cache) ∧
        inferType env norm shared intr (fuel + 1) (.value nm t) ctx cache ≠
          .error .interrupted) ∧
    (∀ (fuel : Nat) (intr : Bool) (l : Level) (ctx : Context) (cache : Cache),
        inferType env norm shared intr (fuel + 1) (.type l) ctx cache =
          .ok (.type (l + 1), cache) ∧
        inferType env norm shared intr (fuel + 1) (.type l) ctx cache ≠
          .error .interrupted) ∧
    (∀ (fuel : Nat) (intr : Bool) (i : Nat) (ctx : Context) (cache : Cache) (ce : CEntry)
        (d : Expr), lookup ctx i = some ce → ce.dom = some d →
        inferType env norm shared intr (fuel + 1) (.var i) ctx cache = .ok (d, cache) ∧
        inferType env norm shared intr (fuel + 1) (.var i) ctx cache ≠
          .error .interrupted) := by
  refine ⟨?_, ?_, ?_, ?_, ?_, ?_⟩
  · intro fuel intr id ty ctx cache
    cases ty <;> exact ⟨rfl, by simp [inferType]⟩
  · intro fuel intr nm ctx cache
    refine ⟨rfl, ?_⟩
    simp only [inferType]
    split <;> simp
  · intro fuel intr a b ctx cache
    exact ⟨rfl, by simp [inferType]⟩
  · intro fuel intr nm t ctx cache
    exact ⟨rfl, by simp [inferType]⟩
  · intro fuel intr l ctx cache
    exact ⟨rfl, by simp [inferType]⟩
  · intro fuel intr i ctx cache ce d hlk hdom
    constructor
    · simp only [inferType, hlk, hdom]
    · simp only [inferType, hlk, hdom]
      simp

/-- Claim C10, witness: a declared variable returns its domain under the
interrupt flag and does not report `Interrupted`. -/
theorem cheap_tier_ignores_interrupt_witness :
    inferType env0 norm0 shared0 true 1 (.var 0) [⟨"x", some tN, none⟩] emptyCache =
      .ok (tN, emptyCache) ∧
    inferType env0 norm0 shared0 true 1 (.var 0) [⟨"x", some tN, none⟩] emptyCache ≠
      .error .interrupted :=
  (cheap_tier_ignores_interrupt env0 norm0 shared0).2.2.2.2.2 0 true 0 _ emptyCache
    ⟨"x", some tN, none⟩ tN rfl rfl

end LightChecker
